import Mathlib

/-!
# Verification of the rai-ngan-wah AreaUnit core (src/components/TaxMapView.js)

Shallow embedding of the pure area-conversion helpers of the repository:
`parseAreaToWah`, `wahToAreaStr`, `parseAreaParts`, `partsToStr`,
`normalizeAreaStr` (TaxMapView.js lines 37-80) and the allocation /
auto-fill logic of the `LandUsePopup` component.

JavaScript numbers are modelled as exact rationals (`ℚ`).  This idealises
IEEE-754 doubles by removing rounding at the 2^53 precision limit; every
arithmetic step of the source (add, mul, sub, `Math.floor`, `Math.round`,
division by 100/400) is otherwise modelled exactly.  `parseFloat` is
modelled on the ECMAScript decimal grammar (leading whitespace, optional
sign, digits, optional fraction, optional exponent, longest valid prefix,
NaN as `none`); the literals `Infinity`/`NaN` accepted by `parseFloat` are
not modelled (no claim distinguishes them).  Number-to-string conversion
follows the ECMAScript `Number::toString` layout for exact decimal values:
positional notation, switching to exponential notation for non-zero
magnitudes below 10^-6 (`0.0000001` prints as `"1e-7"`).  JavaScript also
switches to exponential notation at 10^21, beyond the 2^53 double range
where the exact-rational idealisation has already departed; the embedding
prints such large values positionally, and no claim distinguishes that.
-/

/-- A decimal digit character. -/
def isDigitCh (c : Char) : Bool := 48 ≤ c.toNat && c.toNat ≤ 57

/-- ECMAScript whitespace skipped by `parseFloat` (ASCII portion). -/
def isWsCh (c : Char) : Bool :=
  c.toNat = 32 || c.toNat = 9 || c.toNat = 10 || c.toNat = 13 || c.toNat = 12 || c.toNat = 11

/-- Longest prefix of decimal digits, with the remainder. -/
def takeDigits : List Char → List Char × List Char
  | [] => ([], [])
  | c :: cs =>
    if isDigitCh c then
      let p := takeDigits cs
      (c :: p.1, p.2)
    else ([], c :: cs)

/-- Value of a most-significant-first digit string. -/
def digitsVal (ds : List Char) : ℕ := ds.foldl (fun a c => 10 * a + (c.toNat - 48)) 0

/-- JavaScript `str.split('-')` on a character list: every occurrence of
`'-'` separates chunks, and `"".split('-')` is `[""]`. -/
def splitOnDash : List Char → List (List Char)
  | [] => [[]]
  | c :: cs =>
    if c = '-' then [] :: splitOnDash cs
    else
      match splitOnDash cs with
      | [] => [[c]]
      | p :: ps => (c :: p) :: ps

/-- Exponent suffix of the `parseFloat` grammar: digits after `e[+-]`.
An empty digit run leaves the value unchanged (as in `parseFloat("1e+")`). -/
def applyExpVal (v : ℚ) (cs : List Char) (neg : Bool) : ℚ :=
  let ds := (takeDigits cs).1
  if ds = [] then v
  else if neg then v / 10 ^ digitsVal ds else v * 10 ^ digitsVal ds

/-- Optional sign of the exponent part. -/
def applyExpSign (v : ℚ) (cs : List Char) : ℚ :=
  if cs.head? = some '-' then applyExpVal v cs.tail true
  else if cs.head? = some '+' then applyExpVal v cs.tail false
  else applyExpVal v cs false

/-- Optional exponent part (`e`/`E`) of the `parseFloat` grammar. -/
def applyExp (v : ℚ) (cs : List Char) : ℚ :=
  if cs.head? = some 'e' ∨ cs.head? = some 'E' then applyExpSign v cs.tail else v

/-- Unsigned significand of the `parseFloat` grammar: integer digits,
optional `.` and fraction digits; `none` (NaN) when both runs are empty. -/
def parseUnsigned (cs : List Char) : Option ℚ :=
  let ip := (takeDigits cs).1
  let r1 := (takeDigits cs).2
  if r1.head? = some '.' then
    let fp := (takeDigits r1.tail).1
    let r3 := (takeDigits r1.tail).2
    if ip = [] ∧ fp = [] then none
    else some (applyExp ((digitsVal ip : ℚ) + (digitsVal fp : ℚ) / 10 ^ fp.length) r3)
  else if ip = [] then none
  else some (applyExp (digitsVal ip : ℚ) r1)

/-- Model of `parseFloat` on a character list: skip whitespace, optional sign,
then the unsigned grammar; `none` models NaN. -/
def parseFloatChars (cs : List Char) : Option ℚ :=
  let l := cs.dropWhile isWsCh
  if l.head? = some '-' then (parseUnsigned l.tail).map (fun v => -v)
  else if l.head? = some '+' then parseUnsigned l.tail
  else parseUnsigned l

/-- Characters of a decimal digit `d < 10`. -/
def digitChar (d : ℕ) : Char := Char.ofNat (48 + d)

/-- Fuel-driven digit expansion (structural recursion, so that closed
instances evaluate inside the kernel). -/
def natToCharsAux : ℕ → ℕ → List Char
  | 0, _ => []
  | fuel + 1, n => if n = 0 then [] else natToCharsAux fuel (n / 10) ++ [digitChar (n % 10)]

/-- Most-significant-first digit characters of a natural number
(empty for `0`; callers handle `0` separately). -/
def natToChars (n : ℕ) : List Char := natToCharsAux n n

/-- Number of decimal digits of `m`. -/
def lenDigits (m : ℕ) : ℕ := (natToChars m).length

/-- Strip trailing decimal zeros of the exact decimal `m / 10^k`
(JavaScript prints `41.5`, never `41.50`). -/
def stripZeros : ℕ → ℕ → ℕ × ℕ
  | m, 0 => (m, 0)
  | m, k + 1 => if m % 10 = 0 ∧ m ≠ 0 then stripZeros (m / 10) k else (m, k + 1)

/-- Layout of the exact decimal `m / 10^k` following ECMAScript
`Number::toString`: positional while the value is `0` or has at most five
zeros after the point, exponential (`"1e-7"`) below `10^-6`. -/
def decStr (m k : ℕ) : List Char :=
  if m = 0 then ['0']
  else if k = 0 then natToChars m
  else if k < lenDigits m then
    (natToChars m).take (lenDigits m - k) ++ '.' :: (natToChars m).drop (lenDigits m - k)
  else if k ≤ lenDigits m + 5 then
    '0' :: '.' :: (List.replicate (k - lenDigits m) '0' ++ natToChars m)
  else
    (match natToChars m with
     | [] => []
     | [c] => [c]
     | c :: rest => c :: '.' :: rest) ++ 'e' :: '-' :: natToChars (k - lenDigits m + 1)

/-- Bounded search for an exponent `k` with `d ∣ 10^k`, used to express a
rational with power-of-ten denominator as an exact decimal. -/
def findDecExpAux (d : ℕ) : ℕ → ℕ → ℕ
  | 0, k => k
  | fuel + 1, k => if 10 ^ k % d = 0 then k else findDecExpAux d fuel (k + 1)

/-- Least `k ≤ d` with `d ∣ 10^k` (when one exists). -/
def decExp (d : ℕ) : ℕ := findDecExpAux d (d + 1) 0

/-- Exact-decimal representation `(m, k)` of `|q|` as `m / 10^k`,
with trailing zeros stripped. -/
def decRep (q : ℚ) : ℕ × ℕ :=
  let k := decExp q.den
  stripZeros (q.num.natAbs * 10 ^ k / q.den) k

/-- JavaScript number-to-string conversion (template-literal coercion),
on character lists. -/
def jsNumToStringL (q : ℚ) : List Char :=
  (if q < 0 then ['-'] else []) ++ decStr (decRep q).1 (decRep q).2

/-- JavaScript number-to-string conversion. -/
def jsNumToString (q : ℚ) : String := String.mk (jsNumToStringL q)

/-- JavaScript `Math.round`: round half toward positive infinity. -/
def jsRound (q : ℚ) : ℤ := ⌊q + 1 / 2⌋

/-! ## The AreaUnit operations (TaxMapView.js lines 37-80)

String inputs that may be `null`/`undefined`/non-string in the source are
modelled as `Option String`, with `none` standing for a falsy non-string
value (`null`/`undefined`).  For `parseAreaToWah` and `parseAreaParts` the
source's `typeof str !== 'string'` guard makes every non-string value
behave like `none`; `normalizeAreaStr` has no such guard, so its behaviour
on truthy non-string values — a thrown `TypeError` — is modelled
separately by `normalizeAreaStrJS` over the JS value domain `JsVal`
defined below. -/

/-- Component `i` of an area string: `parseFloat(parts[i]) || 0` after
splitting on `'-'` (missing or unparseable components give `0`). -/
def areaComp (cs : List Char) (i : ℕ) : ℚ :=
  (parseFloatChars ((splitOnDash cs).getD i [])).getD 0

/-- Embedding of `parseAreaToWah` (spec name `parseToScalar`), character-list level:
split on `'-'`, coerce the first three components with `parseFloat(s) || 0`,
return `rai*400 + ngan*100 + wah`. -/
def parseAreaToWahL (cs : List Char) : ℚ :=
  if cs = [] then 0
  else
    let parts := (splitOnDash cs).map (fun t => (parseFloatChars t).getD 0)
    parts.getD 0 0 * 400 + parts.getD 1 0 * 100 + parts.getD 2 0

/-- Embedding of `parseAreaToWah` (TaxMapView.js lines 37-44). -/
def parseAreaToWah (str : Option String) : ℚ :=
  match str with
  | none => 0
  | some s => parseAreaToWahL s.data

/-- Embedding of `wahToAreaStr` (spec name `scalarToText`), character-list level
(TaxMapView.js lines 46-53). -/
def wahToAreaStrL (totalWah : ℚ) : List Char :=
  if totalWah ≤ 0 then ['0', '-', '0', '-', '0']
  else
    let rai : ℚ := ⌊totalWah / 400⌋
    let remain : ℚ := totalWah - rai * 400
    let ngan : ℚ := ⌊remain / 100⌋
    let wah : ℚ := (jsRound ((remain - ngan * 100) * 100) : ℚ) / 100
    jsNumToStringL rai ++ '-' :: jsNumToStringL ngan ++ '-' :: jsNumToStringL wah

/-- Embedding of `wahToAreaStr` (TaxMapView.js lines 46-53). -/
def wahToAreaStr (totalWah : ℚ) : String := String.mk (wahToAreaStrL totalWah)

/-- The three editable fields produced by `parseAreaParts`. -/
structure AreaParts where
  rai : String
  ngan : String
  wah : String
deriving DecidableEq, Repr

/-- Embedding of `parseAreaParts` (spec name `splitToParts`, TaxMapView.js lines 55-63):
dash-separated substrings pass through verbatim, missing ones become `""`. -/
def parseAreaParts (str : Option String) : AreaParts :=
  match str with
  | none => ⟨"", "", ""⟩
  | some s =>
    if s.data = [] then ⟨"", "", ""⟩
    else
      let parts := splitOnDash s.data
      ⟨String.mk (parts.getD 0 []), String.mk (parts.getD 1 []), String.mk (parts.getD 2 [])⟩

/-- Embedding of `partsToStr` (spec name `joinParts`, TaxMapView.js lines 65-70). -/
def partsToStr (rai ngan wah : String) : String :=
  rai ++ "-" ++ ngan ++ "-" ++ wah

/-- Embedding of `normalizeAreaStr` (spec name `normalizeForStorage`), character-list
level (TaxMapView.js lines 72-80). -/
def normalizeAreaStrL (cs : List Char) : List Char :=
  if cs = [] then []
  else
    let r := areaComp cs 0
    let n := areaComp cs 1
    let w := areaComp cs 2
    if r = 0 ∧ n = 0 ∧ w = 0 then []
    else jsNumToStringL r ++ '-' :: jsNumToStringL n ++ '-' :: jsNumToStringL w

/-- Embedding of `normalizeAreaStr` (TaxMapView.js lines 72-80) on string
and falsy input; `none` models a falsy non-string value (`null`/
`undefined`), where the `if (!str) return ''` guard yields `""`.  The
error path taken by truthy non-string input is modelled by
`normalizeAreaStrJS`. -/
def normalizeAreaStr (str : Option String) : String :=
  match str with
  | none => ""
  | some s => String.mk (normalizeAreaStrL s.data)

/-- Model of a JavaScript value reaching the area helpers, coarse but fine
enough to decide the two guards the source uses: truthiness (`!v`) and
`typeof v !== 'string'`.  Non-string values are split by truthiness alone:
`nonStrFalsy` stands for `null`, `undefined`, `0`, `NaN` and `false`;
`nonStrTruthy` stands for every truthy non-string value (a nonzero number,
an array, a plain object, `true`). -/
inductive JsVal where
  | str (s : String)
  | nonStrFalsy
  | nonStrTruthy
deriving DecidableEq, Repr

/-- Truthiness of a `JsVal` (the source's `!v` is its negation): a string
is truthy exactly when it is nonempty. -/
def JsVal.truthy : JsVal → Bool
  | .str s => !s.isEmpty
  | .nonStrFalsy => false
  | .nonStrTruthy => true

/-- Value of `typeof v === 'string'` on a `JsVal`. -/
def JsVal.isStr : JsVal → Bool
  | .str _ => true
  | .nonStrFalsy => false
  | .nonStrTruthy => false

/-- Embedding of `parseAreaToWah` over the JS value domain (TaxMapView.js
lines 37-44), `none` modelling a thrown exception.  The guard
`if (!str || typeof str !== 'string') return 0` returns `0` on every
non-string value before any method is called on the argument, so no input
can throw. -/
def parseAreaToWahJS : JsVal → Option ℚ
  | .str s => some (parseAreaToWah (some s))
  | .nonStrFalsy => some 0
  | .nonStrTruthy => some 0

/-- Embedding of `parseAreaParts` over the JS value domain (TaxMapView.js
lines 55-63), `none` modelling a thrown exception.  The guard
`if (!str || typeof str !== 'string')` returns all-empty parts on every
non-string value before any method is called on the argument, so no input
can throw. -/
def parseAreaPartsJS : JsVal → Option AreaParts
  | .str s => some (parseAreaParts (some s))
  | .nonStrFalsy => some ⟨"", "", ""⟩
  | .nonStrTruthy => some ⟨"", "", ""⟩

/-- Embedding of `normalizeAreaStr` over the JS value domain (TaxMapView.js
lines 72-80), `none` modelling a thrown exception.  Unlike the two
parsers, this function guards only with `if (!str) return ''` — it has no
`typeof` check — so a truthy non-string value falls through the guard,
reaches `str.split('-')`, and throws a `TypeError`. -/
def normalizeAreaStrJS : JsVal → Option String
  | .str s => some (normalizeAreaStr (some s))
  | .nonStrFalsy => some ""
  | .nonStrTruthy => none

/-! ## LandUsePopup allocation state (src/unnamed/part_000 lines 231-284) -/

/-- The `areas` record of the popup: category key to area string, modelled
as an association list. -/
def lookupArea (areas : List (String × String)) (k : String) : Option String :=
  (areas.find? (fun p => p.1 = k)).map Prod.snd

/-- Model of `delete copy[key]` on the `areas` record (toggle-off branch, line 251). -/
def removeArea (areas : List (String × String)) (k : String) : List (String × String) :=
  areas.filter (fun p => ¬ p.1 = k)

/-- Model of the spread update with one key on the `areas` record. -/
def setArea (areas : List (String × String)) (k v : String) : List (String × String) :=
  removeArea areas k ++ [(k, v)]

/-- Embedding of `usedWah` (part_000 line 243): `selected.reduce((sum, key) =>
sum + parseAreaToWah(areas[key]), 0)`. -/
def usedWahCalc (selected : List String) (areas : List (String × String)) : ℚ :=
  selected.foldl (fun sum key => sum + parseAreaToWah (lookupArea areas key)) 0

/-- Embedding of `remainWah` (part_000 line 244). -/
def remainWahCalc (totalArea : Option String) (selected : List String)
    (areas : List (String × String)) : ℚ :=
  parseAreaToWah totalArea - usedWahCalc selected areas

/-- Embedding of `isOverLimit` (part_000 line 245): `totalWah > 0 && usedWah > totalWah`. -/
def isOverLimitCalc (totalArea : Option String) (selected : List String)
    (areas : List (String × String)) : Prop :=
  0 < parseAreaToWah totalArea ∧ parseAreaToWah totalArea < usedWahCalc selected areas

instance (t : Option String) (sel : List String) (a : List (String × String)) :
    Decidable (isOverLimitCalc t sel a) := by
  unfold isOverLimitCalc; infer_instance

/-- Deselecting a category (the removal branch of `toggle`, part_000
lines 249-252): the key leaves `selected` and its `areas` entry is deleted. -/
def toggleOff (key : String) (selected : List String) (areas : List (String × String)) :
    List String × List (String × String) :=
  (selected.filter (fun k => ¬ k = key), removeArea areas key)

/-- Embedding of `autoFillRemain` (part_000 lines 269-275). -/
def autoFillRemain (totalWah : ℚ) (selected : List String)
    (areas : List (String × String)) (key : String) : List (String × String) :=
  let otherUsed := selected.foldl
    (fun sum k => if k = key then sum else sum + parseAreaToWah (lookupArea areas k)) 0
  let remaining := totalWah - otherUsed
  if 0 < remaining then setArea areas key (wahToAreaStr remaining) else areas

/-- The auto-fill button is wired only when `totalWah > 0`
(part_000 line 356). -/
def autoFillOffered (totalWah : ℚ) : Prop := 0 < totalWah

/-! ## Digit-character lemmas -/

theorem digitChar_toNat {d : ℕ} (h : d < 10) : (digitChar d).toNat = 48 + d := by
  interval_cases d <;> decide

theorem isDigitCh_digitChar {d : ℕ} (h : d < 10) : isDigitCh (digitChar d) = true := by
  interval_cases d <;> decide

theorem isWsCh_eq_false_of_digit {c : Char} (h : isDigitCh c = true) : isWsCh c = false := by
  simp only [isDigitCh, Bool.and_eq_true, decide_eq_true_eq] at h
  simp only [isWsCh, Bool.or_eq_false_iff, decide_eq_false_iff_not]
  omega

theorem ne_of_digit {c : Char} (h : isDigitCh c = true) {a : Char}
    (ha : a.toNat < 48 ∨ 57 < a.toNat) : c ≠ a := by
  simp only [isDigitCh, Bool.and_eq_true, decide_eq_true_eq] at h
  intro hca
  subst hca
  omega

theorem natToCharsAux_eq (fuel : ℕ) : ∀ n : ℕ, n ≤ fuel →
    natToCharsAux fuel n = (Nat.digits 10 n).reverse.map digitChar := by
  induction fuel with
  | zero =>
    intro n hn
    interval_cases n
    simp [natToCharsAux]
  | succ fuel ih =>
    intro n hn
    by_cases h0 : n = 0
    · subst h0
      simp [natToCharsAux]
    · have h1 : 0 < n := Nat.pos_of_ne_zero h0
      rw [show natToCharsAux (fuel + 1) n = natToCharsAux fuel (n / 10) ++ [digitChar (n % 10)]
          from by simp [natToCharsAux, h0]]
      rw [ih (n / 10) (by omega)]
      rw [Nat.digits_def' (by norm_num : (1 : ℕ) < 10) h1]
      simp

/-- Bridge between the executable digit expansion and `Nat.digits`. -/
theorem natToChars_eq (n : ℕ) : natToChars n = (Nat.digits 10 n).reverse.map digitChar :=
  natToCharsAux_eq n n le_rfl

theorem lenDigits_eq (m : ℕ) : lenDigits m = (Nat.digits 10 m).length := by
  rw [lenDigits, natToChars_eq]
  simp

theorem natToChars_all_digits (n : ℕ) : ∀ c ∈ natToChars n, isDigitCh c = true := by
  intro c hc
  rw [natToChars_eq] at hc
  simp only [List.mem_map, List.mem_reverse] at hc
  obtain ⟨d, hd, rfl⟩ := hc
  exact isDigitCh_digitChar (Nat.digits_lt_base (by norm_num) hd)

theorem natToChars_ne_nil {n : ℕ} (h : n ≠ 0) : natToChars n ≠ [] := by
  rw [natToChars_eq]
  simp only [ne_eq, List.map_eq_nil_iff, List.reverse_eq_nil_iff]
  exact Nat.digits_ne_nil_iff_ne_zero.mpr h

theorem foldl_digitChar (L : List ℕ) (hL : ∀ d ∈ L, d < 10) (acc : ℕ) :
    List.foldl (fun a c => 10 * a + (c.toNat - 48)) acc (L.map digitChar) =
    List.foldl (fun a d => 10 * a + d) acc L := by
  induction L generalizing acc with
  | nil => rfl
  | cons d L ih =>
    have hd : d < 10 := hL d (List.mem_cons_self d L)
    simp only [List.map_cons, List.foldl_cons, digitChar_toNat hd]
    rw [ih (fun x hx => hL x (List.mem_cons_of_mem d hx))]
    congr 1
    omega

theorem foldl_reverse_ofDigits (L : List ℕ) (acc : ℕ) :
    List.foldl (fun a d => 10 * a + d) acc L.reverse =
    acc * 10 ^ L.length + Nat.ofDigits 10 L := by
  induction L generalizing acc with
  | nil => simp [Nat.ofDigits]
  | cons d L ih =>
    simp only [List.reverse_cons, List.foldl_append, List.foldl_cons, List.foldl_nil,
      Nat.ofDigits_cons, List.length_cons, ih]
    ring

theorem digitsVal_natToChars (n : ℕ) : digitsVal (natToChars n) = n := by
  rw [natToChars_eq]
  unfold digitsVal
  rw [foldl_digitChar _ (fun d hd =>
    Nat.digits_lt_base (by norm_num) (List.mem_reverse.mp hd)) 0]
  rw [foldl_reverse_ofDigits]
  simp [Nat.ofDigits_digits]

/-! ## takeDigits and digitsVal lemmas -/

theorem takeDigits_append {ds rest : List Char} (hds : ∀ c ∈ ds, isDigitCh c = true)
    (hrest : ∀ c, rest.head? = some c → isDigitCh c = false) :
    takeDigits (ds ++ rest) = (ds, rest) := by
  induction ds with
  | nil =>
    cases rest with
    | nil => rfl
    | cons c r =>
      have := hrest c rfl
      simp [takeDigits, this]
  | cons c ds ih =>
    have hc : isDigitCh c = true := hds c (List.mem_cons_self c ds)
    simp only [List.cons_append, takeDigits, hc, if_true]
    rw [show ds.append rest = ds ++ rest from rfl,
      ih (fun x hx => hds x (List.mem_cons_of_mem c hx))]

theorem takeDigits_all {ds : List Char} (hds : ∀ c ∈ ds, isDigitCh c = true) :
    takeDigits ds = (ds, []) := by
  have := @takeDigits_append ds [] hds (fun c hc => by simp at hc)
  simpa using this

theorem digitsVal_from_acc (b : List Char) (acc : ℕ) :
    List.foldl (fun a c => 10 * a + (c.toNat - 48)) acc b =
    acc * 10 ^ b.length + digitsVal b := by
  induction b generalizing acc with
  | nil => simp [digitsVal]
  | cons c b ih =>
    simp only [List.foldl_cons, List.length_cons, digitsVal]
    rw [ih, ih (10 * 0 + (c.toNat - 48))]
    ring

theorem digitsVal_append (a b : List Char) :
    digitsVal (a ++ b) = digitsVal a * 10 ^ b.length + digitsVal b := by
  unfold digitsVal
  rw [List.foldl_append, digitsVal_from_acc]
  rfl

theorem digitsVal_replicate_zero (j : ℕ) : digitsVal (List.replicate j '0') = 0 := by
  induction j with
  | zero => rfl
  | succ j ih =>
    have : List.replicate (j + 1) '0' = '0' :: List.replicate j '0' := rfl
    rw [this]
    unfold digitsVal at ih ⊢
    simpa using ih

/-! ## splitOnDash lemmas -/

theorem splitOnDash_no_dash {a : List Char} (h : '-' ∉ a) : splitOnDash a = [a] := by
  induction a with
  | nil => rfl
  | cons c cs ih =>
    have hc : ¬ c = '-' := fun hc => h (hc ▸ List.mem_cons_self c cs)
    have hcs : '-' ∉ cs := fun hm => h (List.mem_cons_of_mem c hm)
    simp only [splitOnDash, if_neg hc, ih hcs]

theorem splitOnDash_append {a : List Char} (t : List Char) (h : '-' ∉ a) :
    splitOnDash (a ++ '-' :: t) = a :: splitOnDash t := by
  induction a with
  | nil => simp [splitOnDash]
  | cons c cs ih =>
    have hc : ¬ c = '-' := fun hc => h (hc ▸ List.mem_cons_self c cs)
    have hcs : '-' ∉ cs := fun hm => h (List.mem_cons_of_mem c hm)
    simp only [List.cons_append, splitOnDash, if_neg hc]
    rw [show cs.append ('-' :: t) = cs ++ '-' :: t from rfl, ih hcs]

theorem splitOnDash_parts_no_dash (cs : List Char) : ∀ p ∈ splitOnDash cs, '-' ∉ p := by
  induction cs with
  | nil =>
    intro p hp
    simp only [splitOnDash, List.mem_singleton] at hp
    simp [hp]
  | cons c cs ih =>
    intro p hp
    by_cases hc : c = '-'
    · simp only [splitOnDash, hc, if_true, List.mem_cons] at hp
      rcases hp with rfl | hp
      · simp
      · exact ih p hp
    · simp only [splitOnDash, if_neg hc] at hp
      rcases hsplit : splitOnDash cs with _ | ⟨q, qs⟩
      · rw [hsplit] at hp
        simp only [List.mem_singleton] at hp
        subst hp
        simp only [List.mem_singleton]
        exact fun hd => hc hd.symm
      · rw [hsplit] at hp
        simp only [List.mem_cons] at hp
        rcases hp with rfl | hp
        · intro hm
          rcases List.mem_cons.mp hm with hd | hq
          · exact hc hd.symm
          · exact ih q (hsplit ▸ List.mem_cons_self q qs) hq
        · exact ih p (hsplit ▸ List.mem_cons_of_mem q hp)

/-! ## Parsing the printed decimal forms -/

theorem applyExp_nil (v : ℚ) : applyExp v [] = v := by
  simp [applyExp]

theorem parseUnsigned_digits {ds : List Char} (hne : ds ≠ [])
    (hds : ∀ c ∈ ds, isDigitCh c = true) :
    parseUnsigned ds = some (digitsVal ds) := by
  have ht : takeDigits ds = (ds, []) := takeDigits_all hds
  simp [parseUnsigned, ht, hne, applyExp_nil]

theorem parseUnsigned_int_frac {a b : List Char} (ha : ∀ c ∈ a, isDigitCh c = true)
    (hne : a ≠ []) (hb : ∀ c ∈ b, isDigitCh c = true) :
    parseUnsigned (a ++ '.' :: b) =
    some ((digitsVal a : ℚ) + (digitsVal b : ℚ) / 10 ^ b.length) := by
  have ht : takeDigits (a ++ '.' :: b) = (a, '.' :: b) :=
    takeDigits_append ha (fun c hc => by
      simp only [List.head?_cons, Option.some_inj] at hc
      subst hc
      decide)
  have htb : takeDigits b = (b, []) := takeDigits_all hb
  simp [parseUnsigned, ht, htb, hne, applyExp_nil]

theorem parseFloatChars_digit {c : Char} (r : List Char) (h : isDigitCh c = true) :
    parseFloatChars (c :: r) = parseUnsigned (c :: r) := by
  have hw : isWsCh c = false := isWsCh_eq_false_of_digit h
  have h1 : c ≠ '-' := ne_of_digit h (by decide)
  have h2 : c ≠ '+' := ne_of_digit h (by decide)
  simp [parseFloatChars, List.dropWhile_cons, hw, h1, h2]

theorem parse_decStr (m k : ℕ) (hm : 1 ≤ m) (hk : k ≤ lenDigits m + 5) :
    parseFloatChars (decStr m k) = some ((m : ℚ) / 10 ^ k) := by
  have hm0 : m ≠ 0 := by omega
  have hnil : natToChars m ≠ [] := natToChars_ne_nil hm0
  have hdig : ∀ c ∈ natToChars m, isDigitCh c = true := natToChars_all_digits m
  have hlen : (natToChars m).length = lenDigits m := rfl
  by_cases hk0 : k = 0
  · subst hk0
    have hds : decStr m 0 = natToChars m := by
      simp [decStr, hm0]
    rw [hds]
    obtain ⟨c, rest, hcr⟩ := List.exists_cons_of_ne_nil hnil
    have hcd : isDigitCh c = true := hdig c (by rw [hcr]; exact List.mem_cons_self c rest)
    rw [hcr, parseFloatChars_digit rest hcd, ← hcr]
    rw [parseUnsigned_digits hnil hdig, digitsVal_natToChars]
    norm_num
  · by_cases hkL : k < lenDigits m
    · -- positional with the point inside the digits
      have hds : decStr m k =
          (natToChars m).take (lenDigits m - k) ++ '.' ::
          (natToChars m).drop (lenDigits m - k) := by
        simp only [decStr, hm0, if_false, hk0, if_pos hkL]
      have hAne : (natToChars m).take (lenDigits m - k) ≠ [] := by
        have h1 : ((natToChars m).take (lenDigits m - k)).length = lenDigits m - k := by
          rw [List.length_take, hlen]
          omega
        intro hAnil
        rw [hAnil] at h1
        simp at h1
        omega
      have hAdig : ∀ c ∈ (natToChars m).take (lenDigits m - k), isDigitCh c = true :=
        fun c hc => hdig c (List.mem_of_mem_take hc)
      have hBdig : ∀ c ∈ (natToChars m).drop (lenDigits m - k), isDigitCh c = true :=
        fun c hc => hdig c (List.mem_of_mem_drop hc)
      have hBlen : ((natToChars m).drop (lenDigits m - k)).length = k := by
        rw [List.length_drop, hlen]
        omega
      have hval : digitsVal ((natToChars m).take (lenDigits m - k)) * 10 ^ k
          + digitsVal ((natToChars m).drop (lenDigits m - k)) = m := by
        have h2 := digitsVal_append ((natToChars m).take (lenDigits m - k))
          ((natToChars m).drop (lenDigits m - k))
        rw [hBlen, List.take_append_drop, digitsVal_natToChars] at h2
        exact h2.symm
      rw [hds]
      obtain ⟨c, rest, hcr⟩ := List.exists_cons_of_ne_nil hAne
      have hcd : isDigitCh c = true := hAdig c (by rw [hcr]; exact List.mem_cons_self c rest)
      rw [hcr, List.cons_append, parseFloatChars_digit _ hcd, ← List.cons_append, ← hcr]
      rw [parseUnsigned_int_frac hAdig hAne hBdig, hBlen]
      have h10 : (10 : ℚ) ^ k ≠ 0 := by positivity
      have hvalQ : (digitsVal ((natToChars m).take (lenDigits m - k)) : ℚ) * 10 ^ k
          + (digitsVal ((natToChars m).drop (lenDigits m - k)) : ℚ) = (m : ℚ) := by
        exact_mod_cast hval
      congr 1
      rw [eq_div_iff h10, add_mul, div_mul_cancel₀ _ h10]
      exact hvalQ
    · -- positional with leading zeros: 0.00…0digits
      have hds : decStr m k =
          ['0'] ++ '.' :: (List.replicate (k - lenDigits m) '0' ++ natToChars m) := by
        simp only [decStr, hm0, if_false, hk0, hkL, if_false, if_pos hk]
        rfl
      have hBdig : ∀ c ∈ List.replicate (k - lenDigits m) '0' ++ natToChars m,
          isDigitCh c = true := by
        intro c hc
        rcases List.mem_append.mp hc with hc | hc
        · rw [List.eq_of_mem_replicate hc]
          decide
        · exact hdig c hc
      have h0dig : ∀ c ∈ ['0'], isDigitCh c = true := by
        intro c hc
        simp only [List.mem_singleton] at hc
        subst hc
        decide
      have h0ne : (['0'] : List Char) ≠ [] := by simp
      rw [hds, List.singleton_append, parseFloatChars_digit _ (by decide),
        ← List.singleton_append]
      rw [parseUnsigned_int_frac h0dig h0ne hBdig]
      have hvalB : digitsVal (List.replicate (k - lenDigits m) '0' ++ natToChars m) = m := by
        rw [digitsVal_append, digitsVal_replicate_zero, digitsVal_natToChars]
        ring
      have hlenB : (List.replicate (k - lenDigits m) '0' ++ natToChars m).length = k := by
        rw [List.length_append, List.length_replicate, hlen]
        omega
      rw [hvalB, hlenB]
      have hdv0 : digitsVal ['0'] = 0 := by decide
      rw [hdv0]
      congr 1
      norm_num

theorem decStr_chars (m k : ℕ) (hk : k ≤ lenDigits m + 5) :
    ∀ c ∈ decStr m k, isDigitCh c = true ∨ c = '.' := by
  intro c hc
  by_cases hm0 : m = 0
  · subst hm0
    simp only [decStr, if_true, List.mem_singleton] at hc
    subst hc
    left; decide
  · by_cases hk0 : k = 0
    · subst hk0
      simp only [decStr, hm0, if_false, if_pos rfl] at hc
      exact Or.inl (natToChars_all_digits m c hc)
    · by_cases hkL : k < lenDigits m
      · simp only [decStr, hm0, if_false, hk0, if_pos hkL] at hc
        rcases List.mem_append.mp hc with hc | hc
        · exact Or.inl (natToChars_all_digits m c (List.mem_of_mem_take hc))
        · rcases List.mem_cons.mp hc with rfl | hc
          · right; rfl
          · exact Or.inl (natToChars_all_digits m c (List.mem_of_mem_drop hc))
      · simp only [decStr, hm0, if_false, hk0, hkL, if_false, if_pos hk,
          List.mem_cons, List.mem_append] at hc
        rcases hc with rfl | hc
        · left; decide
        · rcases hc with rfl | hc | hc
          · right; rfl
          · rw [List.eq_of_mem_replicate hc]
            left; decide
          · exact Or.inl (natToChars_all_digits m c hc)

theorem dash_not_mem_decStr (m k : ℕ) (hk : k ≤ lenDigits m + 5) :
    '-' ∉ decStr m k := by
  intro hm
  rcases decStr_chars m k hk '-' hm with h | h
  · exact absurd h (by decide)
  · exact absurd h (by decide)

/-! ## Soundness of the exact-decimal representation -/

theorem exists_small_exp : ∀ d : ℕ, d ≠ 0 → (∃ N, d ∣ 10 ^ N) → ∃ j, j ≤ d ∧ d ∣ 10 ^ j := by
  intro d
  induction d using Nat.strong_induction_on with
  | _ d ih =>
    intro hd0 hex
    obtain ⟨N, hN⟩ := hex
    by_cases h1 : d = 1
    · exact ⟨0, by omega, by simp [h1]⟩
    · by_cases h2 : 2 ∣ d
      · obtain ⟨j, hj, hdvd⟩ := ih (d / 2) (Nat.div_lt_self (by omega) (by omega))
          (by omega) ⟨N, dvd_trans (Nat.div_dvd_of_dvd h2) hN⟩
        refine ⟨j + 1, by omega, ?_⟩
        have hd2 : 2 * (d / 2) = d := Nat.mul_div_cancel' h2
        calc d = 2 * (d / 2) := hd2.symm
          _ ∣ 2 * 10 ^ j := mul_dvd_mul_left 2 hdvd
          _ ∣ 10 ^ (j + 1) := by
              have h10 : (2 : ℕ) ∣ 10 := by norm_num
              calc 2 * 10 ^ j ∣ 10 * 10 ^ j := mul_dvd_mul_right h10 _
                _ = 10 ^ (j + 1) := by ring
      · by_cases h5 : 5 ∣ d
        · obtain ⟨j, hj, hdvd⟩ := ih (d / 5) (Nat.div_lt_self (by omega) (by omega))
            (by omega) ⟨N, dvd_trans (Nat.div_dvd_of_dvd h5) hN⟩
          refine ⟨j + 1, by omega, ?_⟩
          have hd5 : 5 * (d / 5) = d := Nat.mul_div_cancel' h5
          calc d = 5 * (d / 5) := hd5.symm
            _ ∣ 5 * 10 ^ j := mul_dvd_mul_left 5 hdvd
            _ ∣ 10 ^ (j + 1) := by
                have h10 : (5 : ℕ) ∣ 10 := by norm_num
                calc 5 * 10 ^ j ∣ 10 * 10 ^ j := mul_dvd_mul_right h10 _
                  _ = 10 ^ (j + 1) := by ring
        · exfalso
          have c2 : Nat.Coprime 2 d := (Nat.prime_two.coprime_iff_not_dvd).mpr h2
          have c5 : Nat.Coprime 5 d := (Nat.prime_five.coprime_iff_not_dvd).mpr h5
          have c10 : Nat.Coprime d 10 := by
            have : Nat.Coprime d (2 * 5) := Nat.Coprime.mul_right c2.symm c5.symm
            simpa using this
          have cN : Nat.Coprime d (10 ^ N) := Nat.Coprime.pow_right N c10
          have : d = 1 := by
            have hg := Nat.gcd_eq_left hN
            rw [cN] at hg
            omega
          exact h1 this

theorem findDecExpAux_dvd {d : ℕ} (hd : 0 < d) :
    ∀ fuel k0, (∃ j, k0 ≤ j ∧ j < k0 + fuel ∧ d ∣ 10 ^ j) →
    d ∣ 10 ^ findDecExpAux d fuel k0 := by
  intro fuel
  induction fuel with
  | zero =>
    intro k0 hex
    obtain ⟨j, h1, h2, _⟩ := hex
    omega
  | succ fuel ih =>
    intro k0 hex
    obtain ⟨j, h1, h2, h3⟩ := hex
    by_cases hk : 10 ^ k0 % d = 0
    · simp only [findDecExpAux, if_pos hk]
      exact Nat.dvd_of_mod_eq_zero hk
    · simp only [findDecExpAux, if_neg hk]
      apply ih (k0 + 1)
      refine ⟨j, ?_, by omega, h3⟩
      rcases Nat.eq_or_lt_of_le h1 with rfl | h
      · exact absurd (Nat.mod_eq_zero_of_dvd h3) hk
      · omega

theorem decExp_dvd {d : ℕ} (hd : 0 < d) (h : ∃ N, d ∣ 10 ^ N) : d ∣ 10 ^ decExp d := by
  obtain ⟨j, hj, hdvd⟩ := exists_small_exp d (by omega) h
  exact findDecExpAux_dvd hd (d + 1) 0 ⟨j, by omega, by omega, hdvd⟩

theorem stripZeros_val (k : ℕ) : ∀ m : ℕ,
    ((stripZeros m k).1 : ℚ) / 10 ^ (stripZeros m k).2 = (m : ℚ) / 10 ^ k := by
  induction k with
  | zero => intro m; rfl
  | succ k ih =>
    intro m
    by_cases h : m % 10 = 0 ∧ m ≠ 0
    · rw [show stripZeros m (k + 1) = stripZeros (m / 10) k from by simp [stripZeros, h]]
      rw [ih (m / 10)]
      have hdvd : 10 ∣ m := Nat.dvd_of_mod_eq_zero h.1
      have hq : ((m / 10 : ℕ) : ℚ) * 10 = (m : ℚ) := by
        exact_mod_cast congrArg (Nat.cast : ℕ → ℚ) (Nat.div_mul_cancel hdvd)
      have hcast : ((m / 10 : ℕ) : ℚ) = (m : ℚ) / 10 := by
        rw [eq_div_iff (by norm_num : (10 : ℚ) ≠ 0)]
        exact hq
      rw [hcast, div_div, pow_succ, mul_comm]
    · rw [show stripZeros m (k + 1) = (m, k + 1) from by simp [stripZeros, h]]

theorem stripZeros_ne_zero (k : ℕ) : ∀ m : ℕ, m ≠ 0 → (stripZeros m k).1 ≠ 0 := by
  induction k with
  | zero => intro m hm; exact hm
  | succ k ih =>
    intro m hm
    by_cases h : m % 10 = 0 ∧ m ≠ 0
    · rw [show stripZeros m (k + 1) = stripZeros (m / 10) k from by simp [stripZeros, h]]
      obtain ⟨h1, _⟩ := h
      apply ih
      omega
    · rw [show stripZeros m (k + 1) = (m, k + 1) from by simp [stripZeros, h]]
      exact hm

theorem decRep_val {q : ℚ} (hq : 0 ≤ q) (hden : ∃ N, (q.den : ℕ) ∣ 10 ^ N) :
    ((decRep q).1 : ℚ) / 10 ^ (decRep q).2 = q := by
  have hd : 0 < q.den := q.pos
  have hdenQ : ((q.den : ℕ) : ℚ) ≠ 0 := Nat.cast_ne_zero.mpr (by omega)
  have hdvd : q.den ∣ 10 ^ decExp q.den := decExp_dvd hd hden
  have hdvd2 : q.den ∣ q.num.natAbs * 10 ^ decExp q.den := Dvd.dvd.mul_left hdvd _
  have hm : (((q.num.natAbs * 10 ^ decExp q.den) / q.den : ℕ) : ℚ) * (q.den : ℚ)
      = ((q.num.natAbs : ℕ) : ℚ) * 10 ^ decExp q.den := by
    exact_mod_cast congrArg (Nat.cast : ℕ → ℚ) (Nat.div_mul_cancel hdvd2)
  have hnn : 0 ≤ q.num := Rat.num_nonneg.mpr hq
  have hnumQ : ((q.num.natAbs : ℕ) : ℚ) = (q.num : ℚ) := by
    have h := Int.natAbs_of_nonneg hnn
    conv_rhs => rw [← h]
    rw [Int.cast_natCast]
  have hrep : decRep q =
      stripZeros (q.num.natAbs * 10 ^ decExp q.den / q.den) (decExp q.den) := rfl
  rw [hrep, stripZeros_val]
  have hnd := Rat.num_div_den q
  rw [div_eq_iff hdenQ] at hnd
  rw [div_eq_iff (by positivity : ((10 : ℚ) ^ decExp q.den) ≠ 0)]
  apply mul_right_cancel₀ hdenQ
  calc ((q.num.natAbs * 10 ^ decExp q.den / q.den : ℕ) : ℚ) * (q.den : ℚ)
      = ((q.num.natAbs : ℕ) : ℚ) * 10 ^ decExp q.den := hm
    _ = (q.num : ℚ) * 10 ^ decExp q.den := by rw [hnumQ]
    _ = (q * q.den) * 10 ^ decExp q.den := by rw [← hnd]
    _ = q * 10 ^ decExp q.den * q.den := by ring

/-- Printing a non-negative exact-decimal JavaScript number and parsing it
back recovers the value, and the printed form contains no `'-'`
(positional notation, guaranteed by the magnitude bound). -/
theorem jsPrint_roundtrip {q : ℚ} (hq : 0 ≤ q) (hden : ∃ N, (q.den : ℕ) ∣ 10 ^ N)
    (hmag : q = 0 ∨ 1 / 1000000 ≤ q) :
    parseFloatChars (jsNumToStringL q) = some q ∧ '-' ∉ jsNumToStringL q := by
  rcases hmag with rfl | hmag
  · exact ⟨by decide, by decide⟩
  · have hq0 : 0 < q := lt_of_lt_of_le (by norm_num) hmag
    have hnotneg : ¬ q < 0 := not_lt.mpr hq
    have hjs : jsNumToStringL q = decStr (decRep q).1 (decRep q).2 := by
      simp [jsNumToStringL, hnotneg]
    have hval := decRep_val hq hden
    have hm0 : (decRep q).1 ≠ 0 := by
      intro h
      rw [h] at hval
      simp at hval
      exact absurd hval.symm (ne_of_gt hq0)
    have hlen1 : 1 ≤ lenDigits (decRep q).1 := by
      rw [lenDigits_eq]
      exact List.length_pos.mpr (Nat.digits_ne_nil_iff_ne_zero.mpr hm0)
    have hkb : (decRep q).2 ≤ lenDigits (decRep q).1 + 5 := by
      by_cases hk6 : (decRep q).2 ≤ 6
      · omega
      · have hge : (10 : ℚ) ^ (decRep q).2 ≤ ((decRep q).1 : ℚ) * 1000000 := by
          have h1 : (1 : ℚ) / 1000000 ≤ ((decRep q).1 : ℚ) / 10 ^ (decRep q).2 := by
            rw [hval]
            exact hmag
          rw [div_le_div_iff (by norm_num) (by positivity)] at h1
          linarith
        have hgeN : 10 ^ (decRep q).2 ≤ (decRep q).1 * 10 ^ 6 := by
          have : ((10 : ℚ) ^ 6) = 1000000 := by norm_num
          rw [← this] at hge
          exact_mod_cast hge
        have h2 : 10 ^ ((decRep q).2 - 6) * 10 ^ 6 = 10 ^ (decRep q).2 := by
          rw [← pow_add]
          congr 1
          omega
        have hpow : 10 ^ ((decRep q).2 - 6) ≤ (decRep q).1 := by
          apply Nat.le_of_mul_le_mul_right _ (by norm_num : 0 < 10 ^ 6)
          rw [h2]
          exact hgeN
        have hlt : (decRep q).1 < 10 ^ lenDigits (decRep q).1 := by
          rw [lenDigits_eq]
          exact Nat.lt_base_pow_length_digits (by norm_num)
        have h3 : 10 ^ ((decRep q).2 - 6) < 10 ^ lenDigits (decRep q).1 :=
          lt_of_le_of_lt hpow hlt
        have h4 := (Nat.pow_lt_pow_iff_right (by norm_num : 1 < 10)).mp h3
        omega
    constructor
    · rw [hjs, parse_decStr _ _ (by omega) hkb, hval]
    · rw [hjs]
      exact dash_not_mem_decStr _ _ hkb

/-- Round trip for non-negative whole numbers. -/
theorem jsNat_roundtrip (n : ℕ) :
    parseFloatChars (jsNumToStringL (n : ℚ)) = some (n : ℚ) ∧
    '-' ∉ jsNumToStringL (n : ℚ) := by
  apply jsPrint_roundtrip (by positivity)
  · exact ⟨0, by simp⟩
  · rcases Nat.eq_zero_or_pos n with rfl | hn
    · left
      norm_num
    · right
      have h1 : (1 : ℚ) ≤ (n : ℚ) := by exact_mod_cast hn
      linarith

/-- Round trip for non-negative multiples of `1/100` (the rounded wah
component). -/
theorem jsCent_roundtrip (w : ℕ) :
    parseFloatChars (jsNumToStringL ((w : ℚ) / 100)) = some ((w : ℚ) / 100) ∧
    '-' ∉ jsNumToStringL ((w : ℚ) / 100) := by
  apply jsPrint_roundtrip (by positivity)
  · refine ⟨2, ?_⟩
    have h1 : ((w : ℚ) / 100) = Rat.divInt (w : ℤ) 100 := by
      rw [Rat.divInt_eq_div]
      push_cast
      ring
    have h2 := Rat.den_dvd (w : ℤ) 100
    rw [← h1] at h2
    have h3 : ((w : ℚ) / 100).den ∣ 100 := by exact_mod_cast h2
    have h4 : (100 : ℕ) = 10 ^ 2 := by norm_num
    exact h4 ▸ h3
  · rcases Nat.eq_zero_or_pos w with rfl | hw
    · left
      norm_num
    · right
      have h1 : (1 : ℚ) ≤ (w : ℚ) := by exact_mod_cast hw
      have h2 : (1 : ℚ) / 100 ≤ (w : ℚ) / 100 := by gcongr
      linarith

/-! ## Parsing a printed rai-ngan-wah triple -/

theorem parseArea_of_printed (q1 q2 q3 : ℚ)
    (p1 : parseFloatChars (jsNumToStringL q1) = some q1) (d1 : '-' ∉ jsNumToStringL q1)
    (p2 : parseFloatChars (jsNumToStringL q2) = some q2) (d2 : '-' ∉ jsNumToStringL q2)
    (p3 : parseFloatChars (jsNumToStringL q3) = some q3) (d3 : '-' ∉ jsNumToStringL q3) :
    parseAreaToWahL
      (jsNumToStringL q1 ++ '-' :: (jsNumToStringL q2 ++ '-' :: jsNumToStringL q3))
      = q1 * 400 + q2 * 100 + q3 := by
  have hsplit : splitOnDash
      (jsNumToStringL q1 ++ '-' :: (jsNumToStringL q2 ++ '-' :: jsNumToStringL q3))
      = [jsNumToStringL q1, jsNumToStringL q2, jsNumToStringL q3] := by
    rw [splitOnDash_append _ d1, splitOnDash_append _ d2, splitOnDash_no_dash d3]
  have hne : jsNumToStringL q1 ++ '-' :: (jsNumToStringL q2 ++ '-' :: jsNumToStringL q3)
      ≠ [] := by simp
  simp only [parseAreaToWahL, if_neg hne, hsplit, List.map_cons, List.map_nil,
    List.getD_cons_zero, List.getD_cons_succ, p1, p2, p3, Option.getD_some]

theorem parse_wah_triple (a b c : ℕ) :
    parseAreaToWahL (jsNumToStringL ((a : ℕ) : ℚ) ++ '-' ::
      (jsNumToStringL ((b : ℕ) : ℚ) ++ '-' :: jsNumToStringL (((c : ℕ) : ℚ) / 100)))
      = ((a : ℕ) : ℚ) * 400 + ((b : ℕ) : ℚ) * 100 + ((c : ℕ) : ℚ) / 100 :=
  parseArea_of_printed _ _ _ (jsNat_roundtrip a).1 (jsNat_roundtrip a).2
    (jsNat_roundtrip b).1 (jsNat_roundtrip b).2 (jsCent_roundtrip c).1 (jsCent_roundtrip c).2

/-- C1: round trip of the two scalar conversions, within 0.01 wah. -/
theorem parseToScalar_scalarToText_roundtrip (x : ℚ) (hx : 0 ≤ x) :
    |parseAreaToWah (some (wahToAreaStr x)) - x| ≤ 1 / 100 := by
  have hbridge : parseAreaToWah (some (wahToAreaStr x)) = parseAreaToWahL (wahToAreaStrL x) :=
    rfl
  rw [hbridge]
  rcases eq_or_lt_of_le hx with rfl | hx0
  · have h0 : parseAreaToWahL (wahToAreaStrL 0) = 0 := by with_unfolding_all decide
    rw [h0]
    norm_num
  · have hnle : ¬ x ≤ 0 := not_le.mpr hx0
    have hstr : wahToAreaStrL x =
        jsNumToStringL ((⌊x / 400⌋ : ℤ) : ℚ) ++ '-' ::
        (jsNumToStringL ((⌊(x - ((⌊x / 400⌋ : ℤ) : ℚ) * 400) / 100⌋ : ℤ) : ℚ) ++ '-' ::
         jsNumToStringL (((jsRound ((x - ((⌊x / 400⌋ : ℤ) : ℚ) * 400 -
           ((⌊(x - ((⌊x / 400⌋ : ℤ) : ℚ) * 400) / 100⌋ : ℤ) : ℚ) * 100) * 100) : ℤ) : ℚ)
           / 100)) := by
      simp only [wahToAreaStrL, if_neg hnle, List.cons_append, List.append_assoc]
    rw [hstr]
    -- rai is a natural number
    have hR0 : (0 : ℤ) ≤ ⌊x / 400⌋ := Int.floor_nonneg.mpr (by positivity)
    obtain ⟨a, haZ⟩ : ∃ a : ℕ, ⌊x / 400⌋ = (a : ℤ) :=
      ⟨(⌊x / 400⌋).toNat, (Int.toNat_of_nonneg hR0).symm⟩
    have haQ : ((⌊x / 400⌋ : ℤ) : ℚ) = ((a : ℕ) : ℚ) := by
      rw [haZ]
      push_cast
      ring
    rw [haQ]
    -- the remainder after rai is non-negative
    have ha_le : ((a : ℕ) : ℚ) ≤ x / 400 := by
      rw [← haQ]
      exact Int.floor_le (x / 400)
    have hrem0 : 0 ≤ x - ((a : ℕ) : ℚ) * 400 := by
      have h2 : ((a : ℕ) : ℚ) * 400 ≤ x / 400 * 400 := by linarith
      rw [div_mul_cancel₀ x (by norm_num : (400 : ℚ) ≠ 0)] at h2
      linarith
    -- ngan is a natural number
    have hN0 : (0 : ℤ) ≤ ⌊(x - ((a : ℕ) : ℚ) * 400) / 100⌋ :=
      Int.floor_nonneg.mpr (by positivity)
    obtain ⟨b, hbZ⟩ : ∃ b : ℕ, ⌊(x - ((a : ℕ) : ℚ) * 400) / 100⌋ = (b : ℤ) :=
      ⟨(⌊(x - ((a : ℕ) : ℚ) * 400) / 100⌋).toNat, (Int.toNat_of_nonneg hN0).symm⟩
    have hbQ : ((⌊(x - ((a : ℕ) : ℚ) * 400) / 100⌋ : ℤ) : ℚ) = ((b : ℕ) : ℚ) := by
      rw [hbZ]
      push_cast
      ring
    rw [hbQ]
    -- the remainder after ngan lies in [0, 100)
    have hb_le : ((b : ℕ) : ℚ) ≤ (x - ((a : ℕ) : ℚ) * 400) / 100 := by
      rw [← hbQ]
      exact Int.floor_le _
    have hrem2a : 0 ≤ x - ((a : ℕ) : ℚ) * 400 - ((b : ℕ) : ℚ) * 100 := by
      have h2 : ((b : ℕ) : ℚ) * 100 ≤ (x - ((a : ℕ) : ℚ) * 400) / 100 * 100 := by linarith
      rw [div_mul_cancel₀ _ (by norm_num : (100 : ℚ) ≠ 0)] at h2
      linarith
    -- the rounded wah is a natural number
    have hW0 : (0 : ℤ) ≤ jsRound ((x - ((a : ℕ) : ℚ) * 400 - ((b : ℕ) : ℚ) * 100) * 100) := by
      unfold jsRound
      exact Int.floor_nonneg.mpr (by nlinarith)
    obtain ⟨c, hcZ⟩ : ∃ c : ℕ,
        jsRound ((x - ((a : ℕ) : ℚ) * 400 - ((b : ℕ) : ℚ) * 100) * 100) = (c : ℤ) :=
      ⟨(jsRound ((x - ((a : ℕ) : ℚ) * 400 - ((b : ℕ) : ℚ) * 100) * 100)).toNat,
        (Int.toNat_of_nonneg hW0).symm⟩
    have hcQ : ((jsRound ((x - ((a : ℕ) : ℚ) * 400 - ((b : ℕ) : ℚ) * 100) * 100) : ℤ) : ℚ)
        = ((c : ℕ) : ℚ) := by
      rw [hcZ]
      push_cast
      ring
    rw [hcQ, parse_wah_triple a b c]
    -- bounds from the floor in jsRound
    have hfl := Int.floor_le ((x - ((a : ℕ) : ℚ) * 400 - ((b : ℕ) : ℚ) * 100) * 100 + 1 / 2)
    have hfg := Int.sub_one_lt_floor
      ((x - ((a : ℕ) : ℚ) * 400 - ((b : ℕ) : ℚ) * 100) * 100 + 1 / 2)
    rw [show ⌊(x - ((a : ℕ) : ℚ) * 400 - ((b : ℕ) : ℚ) * 100) * 100 + 1 / 2⌋
        = jsRound ((x - ((a : ℕ) : ℚ) * 400 - ((b : ℕ) : ℚ) * 100) * 100) from rfl,
      hcZ] at hfl hfg
    rw [abs_le]
    push_cast at hfl hfg
    constructor <;> nlinarith

/-! ## Evaluation helpers for concrete instances -/

theorem string_mk_append (a b : List Char) : String.mk a ++ String.mk b = String.mk (a ++ b) :=
  rfl

theorem mem_of_head? {l : List Char} {a : Char} (h : l.head? = some a) : a ∈ l := by
  cases l with
  | nil => simp at h
  | cons b t =>
    simp only [List.head?_cons, Option.some_inj] at h
    subst h
    exact List.mem_cons_self b t

theorem getD_mem_or_default {α : Type} (l : List α) (d : α) :
    ∀ i : ℕ, l.getD i d ∈ l ∨ l.getD i d = d := by
  induction l with
  | nil =>
    intro i
    right
    cases i <;> rfl
  | cons a t ih =>
    intro i
    cases i with
    | zero => exact Or.inl (List.mem_cons_self a t)
    | succ i =>
      rw [List.getD_cons_succ]
      rcases ih i with h | h
      · exact Or.inl (List.mem_cons_of_mem a h)
      · exact Or.inr h

theorem list_getD_map {α β : Type} (f : α → β) (d : α) :
    ∀ (l : List α) (i : ℕ), (l.map f).getD i (f d) = f (l.getD i d) := by
  intro l
  induction l with
  | nil =>
    intro i
    cases i <;> rfl
  | cons a t ih =>
    intro i
    cases i with
    | zero => rfl
    | succ i =>
      rw [List.map_cons, List.getD_cons_succ, List.getD_cons_succ]
      exact ih i

/-- Value of `parseAreaToWah` expressed through the three components, for every
input (empty input included: all components degrade to zero). -/
theorem parseAreaToWahL_comp (cs : List Char) :
    parseAreaToWahL cs = areaComp cs 0 * 400 + areaComp cs 1 * 100 + areaComp cs 2 := by
  by_cases h : cs = []
  · subst h
    with_unfolding_all decide
  · have h0 : (parseFloatChars []).getD 0 = 0 := rfl
    have hgetD : ∀ i : ℕ,
        ((splitOnDash cs).map (fun t => (parseFloatChars t).getD 0)).getD i 0
        = (parseFloatChars ((splitOnDash cs).getD i [])).getD 0 := by
      intro i
      rw [← h0]
      exact list_getD_map (fun t => (parseFloatChars t).getD 0) [] (splitOnDash cs) i
    simp only [parseAreaToWahL, if_neg h, areaComp, hgetD]

theorem parseAreaToWahL_eval {cs p1 p2 p3 : List Char} {v1 v2 v3 : ℚ}
    (hsplit : splitOnDash cs = [p1, p2, p3])
    (h1 : (parseFloatChars p1).getD 0 = v1)
    (h2 : (parseFloatChars p2).getD 0 = v2)
    (h3 : (parseFloatChars p3).getD 0 = v3) :
    parseAreaToWahL cs = v1 * 400 + v2 * 100 + v3 := by
  have hne : cs ≠ [] := by
    intro h
    rw [h] at hsplit
    simp [splitOnDash] at hsplit
  simp only [parseAreaToWahL, if_neg hne, hsplit, List.map_cons, List.map_nil,
    List.getD_cons_zero, List.getD_cons_succ, h1, h2, h3]

/-! ## C5: the worked example pair of the spec -/

set_option maxRecDepth 4000 in
/-- C5 counterexample: the spec's worked example is arithmetically wrong.
`parseToScalar("12-2-41")` is `12*400 + 2*100 + 41 = 5041`, not `4841`,
and `scalarToText(4841)` is `"12-0-41"`, not `"12-2-41"`. -/
theorem spec_worked_example_false :
    ¬ (parseAreaToWah (some "12-2-41") = 4841 ∧ wahToAreaStr 4841 = "12-2-41") := by
  intro h
  have h2 : wahToAreaStr 4841 = "12-0-41" := by with_unfolding_all decide
  rw [h2] at h
  exact absurd h.2 (by decide)

set_option maxRecDepth 4000 in
/-- C5 amended: the worked example pair with the arithmetic carried out
correctly: `parseToScalar("12-2-41") = 5041`, `scalarToText(5041) =
"12-2-41"`, and `scalarToText(4841) = "12-0-41"`. -/
theorem spec_worked_example_amended :
    parseAreaToWah (some "12-2-41") = 5041 ∧ wahToAreaStr 5041 = "12-2-41" ∧
    wahToAreaStr 4841 = "12-0-41" := by
  refine ⟨?_, by with_unfolding_all decide, by with_unfolding_all decide⟩
  have hsplit : splitOnDash "12-2-41".data = ["12".data, "2".data, "41".data] := by
    with_unfolding_all decide
  have h1 : (parseFloatChars "12".data).getD 0 = 12 := by with_unfolding_all decide
  have h2 : (parseFloatChars "2".data).getD 0 = 2 := by with_unfolding_all decide
  have h3 : (parseFloatChars "41".data).getD 0 = 41 := by with_unfolding_all decide
  show parseAreaToWahL "12-2-41".data = 5041
  rw [parseAreaToWahL_eval hsplit h1 h2 h3]
  norm_num

/-! ## C2: specification of parseToScalar -/

/-- Modelled from the spec's words for `parseToScalar`: split on `-`, parse
each of up to three components as a floating-point number treating
unparseable or missing components as `0`, ignore components beyond the
third, return `A*400 + B*100 + C`; `null`/non-string input returns `0`. -/
def specParseToScalar (str : Option String) : ℚ :=
  match str with
  | none => 0
  | some s => areaComp s.data 0 * 400 + areaComp s.data 1 * 100 + areaComp s.data 2

set_option maxRecDepth 4000 in
/-- C2: `parseToScalar` splits on `-`, parses the first three components
with `parseFloat`-or-zero, ignores extras, and returns `A*400 + B*100 + C`;
`null`, non-string, and empty input give `0`, and malformed components
degrade to `0`. -/
theorem parseToScalar_spec :
    (∀ str : Option String, parseAreaToWah str = specParseToScalar str) ∧
    parseAreaToWah none = 0 ∧ parseAreaToWah (some "") = 0 ∧
    parseAreaToWah (some "abc-def-ghi") = 0 ∧
    parseAreaToWah (some "1-2-3-999") = 1 * 400 + 2 * 100 + 3 := by
  refine ⟨?_, rfl, by with_unfolding_all decide, by with_unfolding_all decide, ?_⟩
  · intro str
    cases str with
    | none => rfl
    | some s => exact parseAreaToWahL_comp s.data
  · have hsplit : splitOnDash "1-2-3-999".data = ["1".data, "2".data, "3".data, "999".data] := by
      with_unfolding_all decide
    have hval : ∀ i : ℕ,
        ((splitOnDash "1-2-3-999".data).map (fun t => (parseFloatChars t).getD 0)).getD i 0
        = (parseFloatChars ((splitOnDash "1-2-3-999".data).getD i [])).getD 0 := by
      intro i
      rw [show (0 : ℚ) = (parseFloatChars []).getD 0 from rfl]
      exact list_getD_map (fun t => (parseFloatChars t).getD 0) [] _ i
    show parseAreaToWahL "1-2-3-999".data = 1 * 400 + 2 * 100 + 3
    rw [show parseAreaToWahL "1-2-3-999".data =
        areaComp "1-2-3-999".data 0 * 400 + areaComp "1-2-3-999".data 1 * 100 +
        areaComp "1-2-3-999".data 2 from parseAreaToWahL_comp _]
    have h1 : areaComp "1-2-3-999".data 0 = 1 := by with_unfolding_all decide
    have h2 : areaComp "1-2-3-999".data 1 = 2 := by with_unfolding_all decide
    have h3 : areaComp "1-2-3-999".data 2 = 3 := by with_unfolding_all decide
    rw [h1, h2, h3]

/-! ## C3: specification of scalarToText -/

/-- Modelled from the spec's words for `scalarToText`: values `<= 0` or
falsy map to `"0-0-0"`; otherwise `rai = floor(total/400)`, `remainder =
total - rai*400`, `ngan = floor(remainder/100)`, `wah = round((remainder -
ngan*100)*100)/100`, returned as `"{rai}-{ngan}-{wah}"`. -/
def specScalarToText (total : ℚ) : String :=
  if total ≤ 0 then "0-0-0"
  else
    let rai : ℤ := ⌊total / 400⌋
    let remainder : ℚ := total - (rai : ℚ) * 400
    let ngan : ℤ := ⌊remainder / 100⌋
    let wah : ℚ := ((jsRound ((remainder - (ngan : ℚ) * 100) * 100) : ℤ) : ℚ) / 100
    jsNumToString (rai : ℚ) ++ "-" ++ jsNumToString (ngan : ℚ) ++ "-" ++ jsNumToString wah

/-- C3: `scalarToText` maps every total `<= 0` (or falsy) to `"0-0-0"` and
every positive total to `"{rai}-{ngan}-{wah}"` with the floor/round
formula of the spec; in particular `scalarToText 0 = scalarToText (-5) =
"0-0-0"`. -/
theorem scalarToText_spec :
    (∀ total : ℚ, wahToAreaStr total = specScalarToText total) ∧
    wahToAreaStr 0 = "0-0-0" ∧ wahToAreaStr (-5) = "0-0-0" := by
  refine ⟨?_, by decide, by decide⟩
  intro total
  unfold wahToAreaStr wahToAreaStrL specScalarToText
  by_cases h : total ≤ 0
  · rw [if_pos h, if_pos h]
  · rw [if_neg h, if_neg h]
    show String.mk _ = String.mk _ ++ String.mk ['-'] ++ String.mk _ ++ String.mk ['-']
      ++ String.mk _
    rw [string_mk_append, string_mk_append, string_mk_append, string_mk_append]
    congr 1
    simp [List.append_assoc]

/-! ## C7: totality and safe defaults of the core -/

/-- C7 counterexample: the claim that every core operation returns its safe
default and never throws on arbitrary input — including non-string input —
is false.  `normalizeAreaStr` guards only with `if (!str)` and has no
`typeof` check, so a truthy non-string value (a nonzero number, an array,
an object) reaches `str.split('-')` and throws a `TypeError` (modelled as
`none`) instead of returning the safe default `""`. -/
theorem core_safe_defaults_false :
    ¬ ∀ v : JsVal, ∃ r : String, normalizeAreaStrJS v = some r := by
  intro h
  obtain ⟨r, hr⟩ := h JsVal.nonStrTruthy
  exact Option.noConfusion hr

set_option maxRecDepth 4000 in
/-- C7 amended: totality of the core as the code actually has it.
`parseToScalar` and `splitToParts` guard with both `!str` and a `typeof`
check, so over the whole JS value domain they never throw and map every
non-string value (and the empty or malformed string) to their safe
defaults `0` and all-empty parts; `scalarToText` is total on numbers and
maps every non-positive input to `"0-0-0"`; `joinParts` is plain dash
concatenation of its three string arguments; `normalizeForStorage` never
throws on a string or on a falsy value (returning `""` or a clean triple),
but on every truthy non-string input it throws a `TypeError`, because its
guard lacks the `typeof` check the two parsers have. -/
theorem core_safe_defaults_amended :
    (∀ v : JsVal, ∃ q : ℚ, parseAreaToWahJS v = some q) ∧
    (∀ v : JsVal, v.isStr = false → parseAreaToWahJS v = some 0) ∧
    parseAreaToWahJS (JsVal.str "") = some 0 ∧
    parseAreaToWahJS (JsVal.str "abc-def-ghi") = some 0 ∧
    (∀ q : ℚ, q ≤ 0 → wahToAreaStr q = "0-0-0") ∧
    (∀ v : JsVal, ∃ p : AreaParts, parseAreaPartsJS v = some p) ∧
    (∀ v : JsVal, v.isStr = false → parseAreaPartsJS v = some ⟨"", "", ""⟩) ∧
    parseAreaPartsJS (JsVal.str "") = some ⟨"", "", ""⟩ ∧
    (∀ r n w : String,
      (partsToStr r n w).data = r.data ++ '-' :: (n.data ++ '-' :: w.data)) ∧
    (∀ v : JsVal, v.isStr = true ∨ v.truthy = false →
      ∃ out : String, normalizeAreaStrJS v = some out) ∧
    normalizeAreaStrJS JsVal.nonStrFalsy = some "" ∧
    normalizeAreaStrJS (JsVal.str "") = some "" ∧
    normalizeAreaStrJS (JsVal.str "x-y-z") = some "" ∧
    normalizeAreaStrJS JsVal.nonStrTruthy = none := by
  refine ⟨fun v => ?_, fun v hv => ?_, by with_unfolding_all decide,
    by with_unfolding_all decide, fun q hq => ?_, fun v => ?_, fun v hv => ?_,
    by decide, fun r n w => ?_, fun v hv => ?_, rfl, by decide,
    by with_unfolding_all decide, rfl⟩
  · cases v <;> exact ⟨_, rfl⟩
  · cases v with
    | str s => simp [JsVal.isStr] at hv
    | nonStrFalsy => rfl
    | nonStrTruthy => rfl
  · unfold wahToAreaStr wahToAreaStrL
    rw [if_pos hq]
  · cases v <;> exact ⟨_, rfl⟩
  · cases v with
    | str s => simp [JsVal.isStr] at hv
    | nonStrFalsy => rfl
    | nonStrTruthy => rfl
  · simp [partsToStr]
  · cases v with
    | str s => exact ⟨_, rfl⟩
    | nonStrFalsy => exact ⟨"", rfl⟩
    | nonStrTruthy => rcases hv with h | h <;> simp [JsVal.isStr, JsVal.truthy] at h

/-- C7 amended witness: the parser safe defaults at a concrete truthy
non-string value and at a concrete falsy value, `scalarToText` at a
concrete non-positive scalar, and the normalizer's throw-free path at a
concrete string. -/
theorem core_safe_defaults_amended_witness :
    parseAreaToWahJS JsVal.nonStrTruthy = some 0 ∧
    wahToAreaStr (-3) = "0-0-0" ∧
    parseAreaPartsJS JsVal.nonStrFalsy = some ⟨"", "", ""⟩ ∧
    ∃ out : String, normalizeAreaStrJS (JsVal.str "1-0-0") = some out :=
  ⟨core_safe_defaults_amended.2.1 JsVal.nonStrTruthy rfl,
   core_safe_defaults_amended.2.2.2.2.1 (-3) (by norm_num),
   core_safe_defaults_amended.2.2.2.2.2.2.1 JsVal.nonStrFalsy rfl,
   core_safe_defaults_amended.2.2.2.2.2.2.2.2.2.1 (JsVal.str "1-0-0") (Or.inl rfl)⟩

/-! ## C8: specification of normalizeForStorage -/

/-- Modelled from the spec's words for `normalizeForStorage`: parse each of
the three components with `parseFloat` defaulting absent/invalid to `0`;
if all three resolve to exactly `0` return the empty string, otherwise
return `"{r}-{n}-{w}"` from the parsed numeric values. -/
def specNormalizeForStorage (str : Option String) : String :=
  match str with
  | none => ""
  | some s =>
    let r := areaComp s.data 0
    let n := areaComp s.data 1
    let w := areaComp s.data 2
    if r = 0 ∧ n = 0 ∧ w = 0 then ""
    else jsNumToString r ++ "-" ++ jsNumToString n ++ "-" ++ jsNumToString w

set_option maxRecDepth 4000 in
/-- C8: `normalizeForStorage` parses the three dash-separated components
with `parseFloat`-or-zero, returns `""` when all three are `0`, and
otherwise rebuilds `"{r}-{n}-{w}"` from the parsed numbers; in particular
`"0-0-0" ↦ ""`, `"" ↦ ""`, `"1-0-0" ↦ "1-0-0"`. -/
theorem normalizeForStorage_spec :
    (∀ str : Option String, normalizeAreaStr str = specNormalizeForStorage str) ∧
    normalizeAreaStr (some "0-0-0") = "" ∧ normalizeAreaStr (some "") = "" ∧
    normalizeAreaStr (some "1-0-0") = "1-0-0" := by
  refine ⟨?_, by with_unfolding_all decide, by decide, by with_unfolding_all decide⟩
  intro str
  cases str with
  | none => rfl
  | some s =>
    show String.mk (normalizeAreaStrL s.data) = _
    by_cases h0 : s.data = []
    · rw [show normalizeAreaStrL s.data = [] from by rw [h0]; rfl]
      have hc0 : areaComp s.data 0 = 0 := by rw [h0]; rfl
      have hc1 : areaComp s.data 1 = 0 := by rw [h0]; rfl
      have hc2 : areaComp s.data 2 = 0 := by rw [h0]; rfl
      simp only [specNormalizeForStorage]
      rw [if_pos ⟨hc0, hc1, hc2⟩]
    · by_cases hz : areaComp s.data 0 = 0 ∧ areaComp s.data 1 = 0 ∧ areaComp s.data 2 = 0
      · rw [show normalizeAreaStrL s.data = [] from by
          simp only [normalizeAreaStrL, if_neg h0]
          rw [if_pos hz]]
        simp only [specNormalizeForStorage]
        rw [if_pos hz]
      · rw [show normalizeAreaStrL s.data = jsNumToStringL (areaComp s.data 0) ++ '-' ::
            jsNumToStringL (areaComp s.data 1) ++ '-' :: jsNumToStringL (areaComp s.data 2)
            from by
          simp only [normalizeAreaStrL, if_neg h0]
          rw [if_neg hz]]
        simp only [specNormalizeForStorage]
        rw [if_neg hz]
        show String.mk _ = String.mk _ ++ String.mk ['-'] ++ String.mk _ ++ String.mk ['-']
          ++ String.mk _
        rw [string_mk_append, string_mk_append, string_mk_append, string_mk_append]
        congr 1
        simp [List.append_assoc]

/-! ## C9: joinParts and splitToParts -/

/-- C9: for dash-free component strings, `splitToParts` is a left inverse
of `joinParts`, with empty strings passing through as empty segments; in
particular `joinParts("12","0","") = "12-0-"` and `splitToParts("12-0-") =
{rai: "12", ngan: "0", wah: ""}`. -/
theorem joinParts_splitToParts_inverse :
    (∀ r n w : String, '-' ∉ r.data → '-' ∉ n.data → '-' ∉ w.data →
      parseAreaParts (some (partsToStr r n w)) = ⟨r, n, w⟩) ∧
    partsToStr "12" "0" "" = "12-0-" ∧
    parseAreaParts (some "12-0-") = ⟨"12", "0", ""⟩ := by
  refine ⟨?_, by decide, by decide⟩
  intro r n w hr hn hw
  have hdata : (partsToStr r n w).data = r.data ++ '-' :: (n.data ++ '-' :: w.data) := by
    show (r ++ "-" ++ n ++ "-" ++ w).data = _
    simp [List.append_assoc]
  have hne : (partsToStr r n w).data ≠ [] := by
    rw [hdata]
    intro h
    rcases List.append_eq_nil.mp h with ⟨_, h2⟩
    exact absurd h2 (by simp)
  have hsplit : splitOnDash (partsToStr r n w).data = [r.data, n.data, w.data] := by
    rw [hdata, splitOnDash_append _ hr, splitOnDash_append _ hn, splitOnDash_no_dash hw]
  show parseAreaParts (some (partsToStr r n w)) = _
  simp only [parseAreaParts]
  rw [if_neg hne, hsplit]
  rfl

/-- C9 witness at the spec's example, discharging the dash-free
hypotheses. -/
theorem joinParts_splitToParts_inverse_witness :
    ('-' ∉ ("12" : String).data ∧ '-' ∉ ("0" : String).data ∧ '-' ∉ ("" : String).data) ∧
    parseAreaParts (some (partsToStr "12" "0" "")) = ⟨"12", "0", ""⟩ :=
  ⟨⟨by decide, by decide, by decide⟩,
    joinParts_splitToParts_inverse.1 "12" "0" "" (by decide) (by decide) (by decide)⟩

/-! ## Concrete parse values used by the allocation examples -/

set_option maxRecDepth 2000 in
theorem parse_5_0_0 : parseAreaToWah (some "5-0-0") = 2000 := by
  show parseAreaToWahL ("5-0-0" : String).data = 2000
  rw [@parseAreaToWahL_eval _ ("5".data) ("0".data) ("0".data) 5 0 0
    (by decide) (by decide) (by decide) (by decide)]
  norm_num

set_option maxRecDepth 2000 in
theorem parse_3_0_0 : parseAreaToWah (some "3-0-0") = 1200 := by
  show parseAreaToWahL ("3-0-0" : String).data = 1200
  rw [@parseAreaToWahL_eval _ ("3".data) ("0".data) ("0".data) 3 0 0
    (by decide) (by decide) (by decide) (by decide)]
  norm_num

set_option maxRecDepth 2000 in
theorem parse_10_0_0 : parseAreaToWah (some "10-0-0") = 4000 := by
  show parseAreaToWahL ("10-0-0" : String).data = 4000
  rw [@parseAreaToWahL_eval _ ("10".data) ("0".data) ("0".data) 10 0 0
    (by decide) (by decide) (by decide) (by decide)]
  norm_num

set_option maxRecDepth 2000 in
theorem parse_8_0_0 : parseAreaToWah (some "8-0-0") = 3200 := by
  show parseAreaToWahL ("8-0-0" : String).data = 3200
  rw [@parseAreaToWahL_eval _ ("8".data) ("0".data) ("0".data) 8 0 0
    (by decide) (by decide) (by decide) (by decide)]
  norm_num

set_option maxRecDepth 2000 in
theorem wahToAreaStr_800 : wahToAreaStr 800 = "2-0-0" := by
  with_unfolding_all decide

theorem usedWah_example :
    usedWahCalc ["a", "b"] [("a", "5-0-0"), ("b", "3-0-0")] = 3200 := by
  unfold usedWahCalc
  simp only [List.foldl_cons, List.foldl_nil]
  rw [show lookupArea [("a", "5-0-0"), ("b", "3-0-0")] "a" = some "5-0-0" from by decide,
    show lookupArea [("a", "5-0-0"), ("b", "3-0-0")] "b" = some "3-0-0" from by decide,
    parse_5_0_0, parse_3_0_0]
  norm_num

/-! ## C4: allocation validation -/

theorem foldl_add_eq_sum (f : String → ℚ) : ∀ (sel : List String) (acc : ℚ),
    sel.foldl (fun s k => s + f k) acc = acc + (sel.map f).sum := by
  intro sel
  induction sel with
  | nil =>
    intro acc
    simp
  | cons a t ih =>
    intro acc
    simp only [List.foldl_cons, List.map_cons, List.sum_cons, ih]
    ring

theorem foldl_add_ext (f g : String → ℚ) : ∀ (sel : List String) (acc : ℚ),
    (∀ k ∈ sel, f k = g k) →
    sel.foldl (fun s k => s + f k) acc = sel.foldl (fun s k => s + g k) acc := by
  intro sel
  induction sel with
  | nil =>
    intro acc _
    rfl
  | cons a t ih =>
    intro acc h
    simp only [List.foldl_cons, h a (List.mem_cons_self a t)]
    exact ih _ (fun k hk => h k (List.mem_cons_of_mem a hk))

theorem lookup_removeArea_self (areas : List (String × String)) (key : String) :
    lookupArea (removeArea areas key) key = none := by
  unfold lookupArea removeArea
  rw [Option.map_eq_none', List.find?_eq_none]
  intro p hp
  have := (List.mem_filter.mp hp).2
  simp only [decide_not, Bool.not_eq_true', decide_eq_false_iff_not] at this
  simp [this]

theorem lookup_removeArea (key k : String) (h : ¬ k = key) :
    ∀ areas : List (String × String),
    lookupArea (removeArea areas key) k = lookupArea areas k := by
  intro areas
  induction areas with
  | nil => rfl
  | cons a t ih =>
    by_cases ha : a.1 = key
    · have h1 : removeArea (a :: t) key = removeArea t key := by
        unfold removeArea
        rw [List.filter_cons_of_neg (by simp [ha])]
      have h2 : ¬ a.1 = k := by
        rw [ha]
        exact fun hh => h hh.symm
      rw [h1, ih]
      unfold lookupArea
      rw [List.find?_cons_of_neg _ (by simp [h2])]
    · have h1 : removeArea (a :: t) key = a :: removeArea t key := by
        unfold removeArea
        rw [List.filter_cons_of_pos (by simp [ha])]
      rw [h1]
      by_cases hak : a.1 = k
      · unfold lookupArea
        rw [List.find?_cons_of_pos _ (by simp [hak]), List.find?_cons_of_pos _ (by simp [hak])]
      · unfold lookupArea
        rw [List.find?_cons_of_neg _ (by simp [hak]), List.find?_cons_of_neg _ (by simp [hak])]
        exact ih

/-- C4: `usedScalar` is the sum of `parseToScalar` over the selected
categories, `remainingScalar = totalScalar - usedScalar`, `isOverLimit ↔
totalScalar > 0 ∧ usedScalar > totalScalar`; deselecting a category removes
its area entry so it no longer contributes; and the spec's concrete
instance: total `"10-0-0"`, areas `{a: "5-0-0", b: "3-0-0"}` give
`usedScalar = 3200`, `remainingScalar = 800`, not over limit. -/
theorem allocation_validation_spec :
    (∀ (sel : List String) (areas : List (String × String)),
      usedWahCalc sel areas = (sel.map (fun k => parseAreaToWah (lookupArea areas k))).sum) ∧
    (∀ (total : Option String) (sel : List String) (areas : List (String × String)),
      remainWahCalc total sel areas = parseAreaToWah total - usedWahCalc sel areas) ∧
    (∀ (total : Option String) (sel : List String) (areas : List (String × String)),
      isOverLimitCalc total sel areas ↔
        0 < parseAreaToWah total ∧ parseAreaToWah total < usedWahCalc sel areas) ∧
    (∀ (sel : List String) (areas : List (String × String)) (key : String),
      lookupArea (toggleOff key sel areas).2 key = none ∧
      usedWahCalc (toggleOff key sel areas).1 (toggleOff key sel areas).2
        = usedWahCalc (sel.filter (fun k => ¬ k = key)) areas) ∧
    usedWahCalc ["a", "b"] [("a", "5-0-0"), ("b", "3-0-0")] = 3200 ∧
    remainWahCalc (some "10-0-0") ["a", "b"] [("a", "5-0-0"), ("b", "3-0-0")] = 800 ∧
    ¬ isOverLimitCalc (some "10-0-0") ["a", "b"] [("a", "5-0-0"), ("b", "3-0-0")] := by
  refine ⟨?_, fun _ _ _ => rfl, fun _ _ _ => Iff.rfl, ?_, usedWah_example, ?_, ?_⟩
  · intro sel areas
    unfold usedWahCalc
    rw [foldl_add_eq_sum]
    ring
  · intro sel areas key
    refine ⟨lookup_removeArea_self areas key, ?_⟩
    unfold toggleOff usedWahCalc
    apply foldl_add_ext
    intro k hk
    have hkne : ¬ k = key := by
      have := (List.mem_filter.mp hk).2
      simpa using this
    exact congrArg parseAreaToWah (lookup_removeArea key k hkne areas)
  · unfold remainWahCalc
    rw [parse_10_0_0, usedWah_example]
    norm_num
  · unfold isOverLimitCalc
    rw [parse_10_0_0, usedWah_example]
    intro h
    have := h.2
    norm_num at this

/-! ## C6: auto-fill-remainder -/

theorem lookup_setArea (areas : List (String × String)) (key v : String) :
    lookupArea (setArea areas key v) key = some v := by
  unfold setArea lookupArea
  have hfd : ∀ l : List (String × String), (∀ p ∈ l, ¬ p.1 = key) →
      List.find? (fun p => p.1 = key) (l ++ [(key, v)]) = some (key, v) := by
    intro l
    induction l with
    | nil =>
      intro _
      simp [List.find?_cons]
    | cons a t ih =>
      intro h
      have ha : ¬ a.1 = key := h a (List.mem_cons_self a t)
      rw [List.cons_append, List.find?_cons_of_neg _ (by simp [ha])]
      exact ih (fun p hp => h p (List.mem_cons_of_mem a hp))
  rw [hfd (removeArea areas key) ?hall]
  · rfl
  · intro p hp
    have := (List.mem_filter.mp hp).2
    simpa using this

theorem autoFill_other_used :
    (["a", "b"].foldl (fun sum k => if k = "a" then sum
      else sum + parseAreaToWah (lookupArea [("b", "8-0-0")] k)) 0) = 3200 := by
  have hb : lookupArea [("b", "8-0-0")] "b" = some "8-0-0" := by decide
  simp [List.foldl_cons, List.foldl_nil, hb, parse_8_0_0]

theorem autoFill_example_eval :
    lookupArea (autoFillRemain (parseAreaToWah (some "10-0-0")) ["a", "b"]
      [("b", "8-0-0")] "a") "a" = some "2-0-0" := by
  rw [parse_10_0_0]
  simp only [autoFillRemain]
  rw [autoFill_other_used]
  rw [if_pos (by norm_num : (0 : ℚ) < 4000 - 3200)]
  rw [lookup_setArea]
  rw [show (4000 : ℚ) - 3200 = 800 from by norm_num, wahToAreaStr_800]

/-- C6 counterexample: with total `"10-0-0"` (4000 wah) and 3200 wah used
by the other category, auto-fill writes `scalarToText(800) = "2-0-0"`
(800 wah is exactly 2 rai), not `"0-2-0"` as the spec's example states. -/
theorem autoFill_example_false :
    ¬ lookupArea (autoFillRemain (parseAreaToWah (some "10-0-0")) ["a", "b"]
        [("b", "8-0-0")] "a") "a" = some "0-2-0" := by
  rw [autoFill_example_eval]
  decide

/-- C6 amended: `autoFillRemain` computes `otherUsed` over all other
selected categories and, when `remaining = totalScalar - otherUsed > 0`,
sets the target category to `scalarToText(remaining)`; the button is
offered only when `totalScalar > 0`; in the spec's example the remaining
800 wah is filled in as `"2-0-0"` (2 rai), not `"0-2-0"`. -/
theorem autoFillRemain_amended :
    (∀ (totalWah : ℚ) (sel : List String) (areas : List (String × String)) (key : String),
      0 < totalWah - sel.foldl (fun sum k => if k = key then sum
          else sum + parseAreaToWah (lookupArea areas k)) 0 →
      lookupArea (autoFillRemain totalWah sel areas key) key
        = some (wahToAreaStr (totalWah - sel.foldl (fun sum k => if k = key then sum
            else sum + parseAreaToWah (lookupArea areas k)) 0))) ∧
    (∀ totalWah : ℚ, autoFillOffered totalWah ↔ 0 < totalWah) ∧
    lookupArea (autoFillRemain (parseAreaToWah (some "10-0-0")) ["a", "b"]
      [("b", "8-0-0")] "a") "a" = some "2-0-0" := by
  refine ⟨?_, fun _ => Iff.rfl, autoFill_example_eval⟩
  intro totalWah sel areas key h
  simp only [autoFillRemain]
  rw [if_pos h]
  exact lookup_setArea areas key _

/-- C6 amended witness: total 400 wah, no other usage, the target category
receives `scalarToText(400)`. -/
theorem autoFillRemain_amended_witness :
    0 < (400 : ℚ) - (["a"].foldl (fun sum k => if k = "a" then sum
        else sum + parseAreaToWah (lookupArea ([] : List (String × String)) k)) 0) ∧
    lookupArea (autoFillRemain 400 ["a"] ([] : List (String × String)) "a") "a"
      = some (wahToAreaStr (400 - ["a"].foldl (fun sum k => if k = "a" then sum
          else sum + parseAreaToWah (lookupArea ([] : List (String × String)) k)) 0)) := by
  have hf : (["a"].foldl (fun sum k => if k = "a" then sum
      else sum + parseAreaToWah (lookupArea ([] : List (String × String)) k)) 0) = 0 := by
    simp
  constructor
  · rw [hf]
    norm_num
  · exact autoFillRemain_amended.1 400 ["a"] ([] : List (String × String)) "a"
      (by rw [hf]; norm_num)

/-! ## C10: storage normalization and the scalar value -/

theorem applyExpVal_nonneg {v : ℚ} (h : 0 ≤ v) (cs : List Char) (b : Bool) :
    0 ≤ applyExpVal v cs b := by
  simp only [applyExpVal]
  split
  · exact h
  · split
    · positivity
    · positivity

theorem applyExpSign_nonneg {v : ℚ} (h : 0 ≤ v) (cs : List Char) : 0 ≤ applyExpSign v cs := by
  simp only [applyExpSign]
  split
  · exact applyExpVal_nonneg h _ _
  · split
    · exact applyExpVal_nonneg h _ _
    · exact applyExpVal_nonneg h _ _

theorem applyExp_nonneg {v : ℚ} (h : 0 ≤ v) (cs : List Char) : 0 ≤ applyExp v cs := by
  simp only [applyExp]
  split
  · exact applyExpSign_nonneg h _
  · exact h

theorem parseUnsigned_nonneg {cs : List Char} {v : ℚ} (h : parseUnsigned cs = some v) :
    0 ≤ v := by
  simp only [parseUnsigned] at h
  split at h
  · split at h
    · simp at h
    · have h2 := Option.some_inj.mp h
      rw [← h2]
      apply applyExp_nonneg
      positivity
  · split at h
    · simp at h
    · have h2 := Option.some_inj.mp h
      rw [← h2]
      apply applyExp_nonneg
      positivity

theorem parseFloatChars_nonneg {cs : List Char} (hd : '-' ∉ cs) {v : ℚ}
    (h : parseFloatChars cs = some v) : 0 ≤ v := by
  have hd2 : '-' ∉ cs.dropWhile isWsCh :=
    fun hm => hd ((List.dropWhile_sublist isWsCh).subset hm)
  by_cases h1 : (cs.dropWhile isWsCh).head? = some '-'
  · exact absurd (mem_of_head? h1) hd2
  · by_cases h2 : (cs.dropWhile isWsCh).head? = some '+'
    · simp only [parseFloatChars] at h
      rw [if_neg h1, if_pos h2] at h
      exact parseUnsigned_nonneg h
    · simp only [parseFloatChars] at h
      rw [if_neg h1, if_neg h2] at h
      exact parseUnsigned_nonneg h

theorem den_natCast_div_pow (x k : ℕ) : (((x : ℚ)) / 10 ^ k).den ∣ 10 ^ k := by
  have h1 : ((x : ℚ)) / 10 ^ k = Rat.divInt (x : ℤ) ((10 ^ k : ℕ) : ℤ) := by
    rw [Rat.divInt_eq_div]
    push_cast
    ring
  rw [h1]
  have h2 := Rat.den_dvd (x : ℤ) ((10 ^ k : ℕ) : ℤ)
  exact_mod_cast h2

theorem den_pow_ten (k : ℕ) : ((10 : ℚ) ^ k).den = 1 := by
  rw [show ((10 : ℚ) ^ k) = ((10 ^ k : ℕ) : ℚ) from by push_cast; ring]
  exact Rat.den_natCast _

theorem applyExpVal_den {v : ℚ} (hv : ∃ N, v.den ∣ 10 ^ N) (cs : List Char) (b : Bool) :
    ∃ N, (applyExpVal v cs b).den ∣ 10 ^ N := by
  obtain ⟨N, hN⟩ := hv
  simp only [applyExpVal]
  split
  · exact ⟨N, hN⟩
  · split
    · refine ⟨N + digitsVal (takeDigits cs).1, ?_⟩
      have h1 : v / 10 ^ digitsVal (takeDigits cs).1
          = v * (1 / 10 ^ digitsVal (takeDigits cs).1) := by ring
      rw [h1]
      have h2 := Rat.mul_den_dvd v (1 / 10 ^ digitsVal (takeDigits cs).1)
      have h3 : ((1 : ℚ) / 10 ^ digitsVal (takeDigits cs).1).den
          ∣ 10 ^ digitsVal (takeDigits cs).1 := by
        have h4 := den_natCast_div_pow 1 (digitsVal (takeDigits cs).1)
        simpa using h4
      refine dvd_trans h2 ?_
      rw [pow_add]
      exact mul_dvd_mul hN h3
    · refine ⟨N, ?_⟩
      have h2 := Rat.mul_den_dvd v ((10 : ℚ) ^ digitsVal (takeDigits cs).1)
      rw [den_pow_ten, mul_one] at h2
      exact dvd_trans h2 hN

theorem applyExpSign_den {v : ℚ} (hv : ∃ N, v.den ∣ 10 ^ N) (cs : List Char) :
    ∃ N, (applyExpSign v cs).den ∣ 10 ^ N := by
  simp only [applyExpSign]
  split
  · exact applyExpVal_den hv _ _
  · split
    · exact applyExpVal_den hv _ _
    · exact applyExpVal_den hv _ _

theorem applyExp_den {v : ℚ} (hv : ∃ N, v.den ∣ 10 ^ N) (cs : List Char) :
    ∃ N, (applyExp v cs).den ∣ 10 ^ N := by
  simp only [applyExp]
  split
  · exact applyExpSign_den hv _
  · exact hv

theorem den_int_frac (a b f : ℕ) : (((a : ℚ) + (b : ℚ) / 10 ^ f)).den ∣ 10 ^ f := by
  have h1 := Rat.add_den_dvd (a : ℚ) ((b : ℚ) / 10 ^ f)
  rw [Rat.den_natCast, one_mul] at h1
  exact dvd_trans h1 (den_natCast_div_pow b f)

theorem parseUnsigned_den {cs : List Char} {v : ℚ} (h : parseUnsigned cs = some v) :
    ∃ N, v.den ∣ 10 ^ N := by
  simp only [parseUnsigned] at h
  split at h
  · split at h
    · simp at h
    · have h2 := Option.some_inj.mp h
      rw [← h2]
      exact applyExp_den ⟨_, den_int_frac _ _ _⟩ _
  · split at h
    · simp at h
    · have h2 := Option.some_inj.mp h
      rw [← h2]
      refine applyExp_den ⟨0, ?_⟩ _
      rw [Rat.den_natCast]
      exact one_dvd _

theorem parseFloatChars_den {cs : List Char} {v : ℚ} (h : parseFloatChars cs = some v) :
    ∃ N, v.den ∣ 10 ^ N := by
  simp only [parseFloatChars] at h
  split at h
  · rw [Option.map_eq_some'] at h
    obtain ⟨w, hw, hv⟩ := h
    rw [← hv]
    have := parseUnsigned_den hw
    simpa [Rat.neg_den] using this
  · split at h
    · exact parseUnsigned_den h
    · exact parseUnsigned_den h

theorem part_no_dash (cs : List Char) (i : ℕ) : '-' ∉ (splitOnDash cs).getD i [] := by
  rcases getD_mem_or_default (splitOnDash cs) [] i with hm | he
  · exact splitOnDash_parts_no_dash cs _ hm
  · rw [he]
    simp

theorem areaComp_nonneg (cs : List Char) (i : ℕ) : 0 ≤ areaComp cs i := by
  unfold areaComp
  rcases hp : parseFloatChars ((splitOnDash cs).getD i []) with _ | v
  · simp
  · simp only [Option.getD_some]
    exact parseFloatChars_nonneg (part_no_dash cs i) hp

theorem areaComp_den (cs : List Char) (i : ℕ) : ∃ N, (areaComp cs i).den ∣ 10 ^ N := by
  unfold areaComp
  rcases hp : parseFloatChars ((splitOnDash cs).getD i []) with _ | v
  · exact ⟨0, by simp⟩
  · simp only [Option.getD_some]
    exact parseFloatChars_den hp

set_option maxRecDepth 2000 in
/-- C10 counterexample: `normalizeForStorage("0.0000001-0-0")` prints the
first component in JavaScript exponential notation, producing
`"1e-7-0-0"`; re-parsing splits on the `'-'` of the exponent and yields
`1*400 + 7*100 = 1100` instead of the original `4/100000`. -/
theorem normalize_preserves_scalar_false :
    parseAreaToWah (some (normalizeAreaStr (some "0.0000001-0-0")))
      ≠ parseAreaToWah (some "0.0000001-0-0") := by
  have hnorm : normalizeAreaStr (some "0.0000001-0-0") = "1e-7-0-0" := by
    with_unfolding_all decide
  rw [hnorm]
  have hL : parseAreaToWah (some "1e-7-0-0") = 1100 := by
    rw [show parseAreaToWah (some "1e-7-0-0")
        = parseAreaToWahL ("1e-7-0-0" : String).data from rfl, parseAreaToWahL_comp]
    rw [show areaComp ("1e-7-0-0" : String).data 0 = 1 from by with_unfolding_all decide,
      show areaComp ("1e-7-0-0" : String).data 1 = 7 from by with_unfolding_all decide,
      show areaComp ("1e-7-0-0" : String).data 2 = 0 from by with_unfolding_all decide]
    norm_num
  have hp : parseFloatChars ("0.0000001" : String).data
      = some ((digitsVal ['0'] : ℚ)
        + (digitsVal ("0000001" : String).data : ℚ) / 10 ^ ("0000001" : String).data.length) := by
    have h1 : ("0.0000001" : String).data = ['0'] ++ '.' :: ("0000001" : String).data := by
      decide
    rw [h1, List.singleton_append, parseFloatChars_digit _ (by decide),
      ← List.singleton_append]
    exact parseUnsigned_int_frac (by decide) (by simp) (by decide)
  have hp2 : (parseFloatChars ("0.0000001" : String).data).getD 0 = (1 : ℚ) / 10 ^ 7 := by
    rw [hp, Option.getD_some,
      show digitsVal ['0'] = 0 from rfl,
      show digitsVal ("0000001" : String).data = 1 from by decide,
      show ("0000001" : String).data.length = 7 from by decide]
    norm_num
  have hR : parseAreaToWah (some "0.0000001-0-0") = ((1 : ℚ) / 10 ^ 7) * 400 := by
    show parseAreaToWahL ("0.0000001-0-0" : String).data = _
    rw [@parseAreaToWahL_eval _ ("0.0000001".data) ("0".data) ("0".data)
      ((1 : ℚ) / 10 ^ 7) 0 0
      (by decide) hp2 (by with_unfolding_all decide) (by with_unfolding_all decide)]
    norm_num
  rw [hL, hR]
  norm_num

/-- C10 amended: normalization preserves the scalar provided each of the
first three components parses to `0` or to a value of at least `10^-6`
(so its decimal rendering is positional and free of `'-'`). -/
theorem normalize_preserves_scalar_amended :
    ∀ s : String,
    (∀ i, i < 3 → areaComp s.data i = 0 ∨ 1 / 1000000 ≤ areaComp s.data i) →
    parseAreaToWah (some (normalizeAreaStr (some s))) = parseAreaToWah (some s) := by
  intro s hmag
  show parseAreaToWahL (normalizeAreaStrL s.data) = parseAreaToWahL s.data
  by_cases h0 : s.data = []
  · rw [show normalizeAreaStrL s.data = [] from by rw [h0]; rfl, h0]
  · by_cases hz : areaComp s.data 0 = 0 ∧ areaComp s.data 1 = 0 ∧ areaComp s.data 2 = 0
    · rw [show normalizeAreaStrL s.data = [] from by
        simp only [normalizeAreaStrL, if_neg h0]
        rw [if_pos hz]]
      rw [parseAreaToWahL_comp s.data, hz.1, hz.2.1, hz.2.2]
      rw [show parseAreaToWahL [] = 0 from rfl]
      norm_num
    · rw [show normalizeAreaStrL s.data = jsNumToStringL (areaComp s.data 0) ++ '-' ::
          jsNumToStringL (areaComp s.data 1) ++ '-' :: jsNumToStringL (areaComp s.data 2)
          from by
        simp only [normalizeAreaStrL, if_neg h0]
        rw [if_neg hz]]
      have hrt : ∀ i, i < 3 → parseFloatChars (jsNumToStringL (areaComp s.data i))
          = some (areaComp s.data i) ∧ '-' ∉ jsNumToStringL (areaComp s.data i) := by
        intro i hi
        exact jsPrint_roundtrip (areaComp_nonneg s.data i) (areaComp_den s.data i) (hmag i hi)
      rw [show jsNumToStringL (areaComp s.data 0) ++ '-' :: jsNumToStringL (areaComp s.data 1)
          ++ '-' :: jsNumToStringL (areaComp s.data 2)
          = jsNumToStringL (areaComp s.data 0) ++ '-' :: (jsNumToStringL (areaComp s.data 1)
          ++ '-' :: jsNumToStringL (areaComp s.data 2)) from by simp [List.append_assoc]]
      rw [parseArea_of_printed _ _ _ (hrt 0 (by norm_num)).1 (hrt 0 (by norm_num)).2
        (hrt 1 (by norm_num)).1 (hrt 1 (by norm_num)).2
        (hrt 2 (by norm_num)).1 (hrt 2 (by norm_num)).2]
      rw [parseAreaToWahL_comp s.data]

set_option maxRecDepth 2000 in
/-- C10 amended witness at `"1-2-3.5"`: all components are at least
`10^-6`, and normalization preserves the scalar. -/
theorem normalize_preserves_scalar_amended_witness :
    (∀ i, i < 3 → areaComp ("1-2-3.5" : String).data i = 0 ∨
      1 / 1000000 ≤ areaComp ("1-2-3.5" : String).data i) ∧
    parseAreaToWah (some (normalizeAreaStr (some "1-2-3.5")))
      = parseAreaToWah (some "1-2-3.5") := by
  have hm : ∀ i, i < 3 → areaComp ("1-2-3.5" : String).data i = 0 ∨
      1 / 1000000 ≤ areaComp ("1-2-3.5" : String).data i := by
    intro i hi
    interval_cases i
    · right
      with_unfolding_all decide
    · right
      with_unfolding_all decide
    · right
      with_unfolding_all decide
  exact ⟨hm, normalize_preserves_scalar_amended "1-2-3.5" hm⟩

/-- C1 witness at `x = 3.7` wah. -/
theorem parseToScalar_scalarToText_roundtrip_witness :
    (0 : ℚ) ≤ 37 / 10 ∧
    |parseAreaToWah (some (wahToAreaStr (37 / 10))) - 37 / 10| ≤ 1 / 100 :=
  ⟨by norm_num, parseToScalar_scalarToText_roundtrip (37 / 10) (by norm_num)⟩
